import Mathlib

/-!
Verification of the Fitpulse normalization-and-merge pipeline.

This file is a shallow embedding of the pure-Python (pandas-absent) path of
the repository: records are association lists of string keys and dynamic
values, mirroring Python dicts built by `csv.DictReader` / `json.load`
(keys are unique in any dict-derived record), and the functions below are
direct translations of `load_csv.py`, `load_json.py` and
`data_load_pipeline.py` (list-of-dicts branches).
-/

namespace FitPulse

/-- Dynamic value of a record field, mirroring the Python values that flow
through the pipeline: strings, ints, floats (kept as an opaque
numerator/denominator pair: no arithmetic is ever done on them), parsed
datetimes (encoded as a chronologically monotone natural number), and
Python `None`.  Cross-type numeric comparison/equality (Python `72 == 72.0`) is not modelled; no pipeline data exercises it. -/
inductive Value where
  | str (s : String)
  | int (n : Int)
  | float (num : Int) (den : Nat)
  | dt (n : Nat)
  | none
deriving DecidableEq, Repr

/-- A record is a Python dict: an insertion-ordered association list.
Dict-derived records have pairwise-distinct keys. -/
abbrev Rec : Type := List (String × Value)

/-- Python truthiness of a value (`if ts:` in the sources). -/
def truthy : Value → Bool
  | .str s => s ≠ ""
  | .int n => n ≠ 0
  | .float n _ => n ≠ 0
  | .dt _ => true
  | .none => false

/-- `r[k]` lookup returning the first binding, `Option.none` when absent. -/
def lookupVal (r : Rec) (k : String) : Option Value :=
  match r with
  | [] => Option.none
  | (k', v) :: rest => if k' = k then some v else lookupVal rest k

/-- Python `r.get(k)`: absent keys give Python `None`. -/
def getVal (r : Rec) (k : String) : Value :=
  (lookupVal r k).getD Value.none

/-- Python `r.pop(k)`: remove the (first) binding of `k`. -/
def eraseKey (k : String) : Rec → Rec
  | [] => []
  | (k', v) :: rest => if k' = k then rest else (k', v) :: eraseKey k rest

/-- Python `r[k] = v` on a dict already containing `k`: the binding keeps
its position. -/
def setKeyVal (r : Rec) (k : String) (v : Value) : Rec :=
  List.map (fun p => if p.1 = k then (k, v) else p) r

/-! ### ISO-8601 timestamp parsing

Model of `datetime.fromisoformat` on the formats used by the pipeline data:
`YYYY-MM-DD[*HH[:MM[:SS]]]` with `*` any single separator character, full
calendar validation, whole seconds.  The result is encoded as
`((((y*100+mo)*100+d))*1000000 + h*10000 + mi*100 + s)`, which is
chronologically monotone, so `datetime` ordering is `Nat` ordering. -/

def digitVal (c : Char) : Option Nat :=
  if c.isDigit then some (c.toNat - 48) else Option.none

def twoDigits (a b : Char) : Option Nat :=
  match digitVal a, digitVal b with
  | some x, some y => some (x * 10 + y)
  | _, _ => Option.none

def fourDigits (a b c d : Char) : Option Nat :=
  match digitVal a, digitVal b, digitVal c, digitVal d with
  | some w, some x, some y, some z => some (((w * 10 + x) * 10 + y) * 10 + z)
  | _, _, _, _ => Option.none

def isLeap (y : Nat) : Bool :=
  (y % 4 == 0 && y % 100 != 0) || (y % 400 == 0)

def daysInMonth (y m : Nat) : Nat :=
  match m with
  | 2 => if isLeap y then 29 else 28
  | 4 => 30
  | 6 => 30
  | 9 => 30
  | 11 => 30
  | _ => 31

def mkDateTime (y mo d h mi s : Nat) : Option Nat :=
  if 1 ≤ y && y ≤ 9999 && 1 ≤ mo && mo ≤ 12 && 1 ≤ d && d ≤ daysInMonth y mo
      && h ≤ 23 && mi ≤ 59 && s ≤ 59 then
    some ((((y * 100 + mo) * 100 + d)) * 1000000 + h * 10000 + mi * 100 + s)
  else Option.none

def parseIsoDatetime (s : String) : Option Nat :=
  match s.data with
  | [y1, y2, y3, y4, '-', m1, m2, '-', d1, d2] =>
    match fourDigits y1 y2 y3 y4, twoDigits m1 m2, twoDigits d1 d2 with
    | some y, some mo, some d => mkDateTime y mo d 0 0 0
    | _, _, _ => Option.none
  | [y1, y2, y3, y4, '-', m1, m2, '-', d1, d2, _, h1, h2] =>
    match fourDigits y1 y2 y3 y4, twoDigits m1 m2, twoDigits d1 d2,
        twoDigits h1 h2 with
    | some y, some mo, some d, some h => mkDateTime y mo d h 0 0
    | _, _, _, _ => Option.none
  | [y1, y2, y3, y4, '-', m1, m2, '-', d1, d2, _, h1, h2, ':', n1, n2] =>
    match fourDigits y1 y2 y3 y4, twoDigits m1 m2, twoDigits d1 d2,
        twoDigits h1 h2, twoDigits n1 n2 with
    | some y, some mo, some d, some h, some mi => mkDateTime y mo d h mi 0
    | _, _, _, _, _ => Option.none
  | [y1, y2, y3, y4, '-', m1, m2, '-', d1, d2, _, h1, h2, ':', n1, n2, ':', s1, s2] =>
    match fourDigits y1 y2 y3 y4, twoDigits m1 m2, twoDigits d1 d2,
        twoDigits h1 h2, twoDigits n1 n2, twoDigits s1 s2 with
    | some y, some mo, some d, some h, some mi, some se => mkDateTime y mo d h mi se
    | _, _, _, _, _, _ => Option.none
  | _ => Option.none

/-! ### Row normalization (`load_csv.py` lines 29–35, `load_json.py` lines 36–58) -/

/-- `datetime.fromisoformat(ts)` applied to a dynamic value: succeeds only on
a parsable string; any other argument raises (`TypeError`/`ValueError`),
which the callers swallow. -/
def tryParseTs : Value → Option Nat
  | .str s => parseIsoDatetime s
  | _ => Option.none

/-- Shared timestamp-normalization step: `ts = r.get("timestamp")`,
`if ts: try: r["timestamp"] = datetime.fromisoformat(ts) except: pass`. -/
def normTs (r : Rec) : Rec :=
  let ts := getVal r "timestamp"
  if truthy ts then
    match tryParseTs ts with
    | some d => setKeyVal r "timestamp" (Value.dt d)
    | Option.none => r
  else r

/-- Heart-rate rename (`load_json.py` lines 37–38):
`if "bpm" in r and "heart_rate_bpm" not in r: r["heart_rate_bpm"] = r.pop("bpm")`.
`pop` removes the binding in place and the assignment appends at the end. -/
def renameBpm (r : Rec) : Rec :=
  match lookupVal r "bpm", lookupVal r "heart_rate_bpm" with
  | some v, Option.none => eraseKey "bpm" r ++ [("heart_rate_bpm", v)]
  | _, _ => r

/-- Full normalization of one raw JSON heart-rate record: rename then
timestamp parse, in source order. -/
def normalizeHr (r : Rec) : Rec := normTs (renameBpm r)

/-! ### Source loaders (fallback, pandas-absent path)

File access is modelled at its natural boundary.  For the CSV loaders the
whole read loop sits inside `try`, so an `Except Unit` input stands for the
outcome of `open`+read: any failure there is swallowed and degrades to the
empty list, and the loaders are total.

The JSON loader is different: its `try` covers only `open`+`json.load`
(`load_json.py` lines 24–29), so `Option.none` stands only for a file that
is absent or not syntactically valid JSON.  A file that parses to some
document of the wrong shape reaches lines 31–58 unprotected, where
`blob.get`, `list(...)` and the per-record field accesses raise uncaught
`AttributeError`/`TypeError`.  The loader is therefore modelled over a
dynamic `Json` document with an `Except PyError` result whose error case is
exactly that uncaught exception. -/

def loadHeartRateCsv (readResult : Except Unit (List Rec)) : List Rec :=
  match readResult with
  | .error _ => []
  | .ok rows => rows.map normTs

def loadStepsCsv (readResult : Except Unit (List Rec)) : List Rec :=
  match readResult with
  | .error _ => []
  | .ok rows => rows.map normTs

def loadSleepCsv (readResult : Except Unit (List Rec)) : List Rec :=
  match readResult with
  | .error _ => []
  | .ok rows => rows.map normTs

/-- Dynamic shape of a parsed JSON document, as `json.load` can return it:
a scalar (string, number or null), an array of documents, or an object.
Object field values are documents again, so misshaped files — a non-dict
top level, a data key holding a non-iterable, a non-dict element inside a
data array — are all representable. -/
inductive Json where
  | scalar (v : Value)
  | arr (elems : List Json)
  | obj (fields : List (String × Json))

/-- Uncaught Python exception escaping `load_fitness_json`. -/
inductive PyError where
  | attributeError
  | typeError
deriving DecidableEq

/-- First binding of `k` in a JSON object. -/
def lookupJ (r : List (String × Json)) (k : String) : Option Json :=
  match r with
  | [] => Option.none
  | (k', v) :: rest => if k' = k then some v else lookupJ rest k

/-- `blob.get(key, [])`: only dicts have a `get` attribute; every other
value raises `AttributeError`. -/
def jsonGet (blob : Json) (key : String) : Except PyError Json :=
  match blob with
  | .obj fields => .ok ((lookupJ fields key).getD (Json.arr []))
  | _ => .error .attributeError

/-- Python `list(x)`: copies an array, lists the keys of a dict, splits a
string into one-character strings, and raises `TypeError` on a
non-iterable scalar. -/
def pyListOf (x : Json) : Except PyError (List Json) :=
  match x with
  | .arr elems => .ok elems
  | .obj fields => .ok (fields.map (fun p => Json.scalar (Value.str p.1)))
  | .scalar (.str s) =>
    .ok (s.data.map (fun c => Json.scalar (Value.str (String.singleton c))))
  | .scalar _ => .error .typeError

/-- Python `==` of a JSON value against the string `s` (never raises). -/
def isStrEq (s : String) : Json → Bool
  | .scalar (.str t) => t = s
  | _ => false

/-- Python `r.pop(k)` on a JSON object. -/
def eraseKeyJ (k : String) : List (String × Json) → List (String × Json)
  | [] => []
  | (k', v) :: rest => if k' = k then rest else (k', v) :: eraseKeyJ k rest

/-- Python `r[k] = v` on a JSON object already containing `k`. -/
def setKeyValJ (r : List (String × Json)) (k : String) (v : Json) :
    List (String × Json) :=
  List.map (fun p => if p.1 = k then (k, v) else p) r

/-- Python truthiness of a JSON value. -/
def truthyJ : Json → Bool
  | .scalar v => truthy v
  | .arr elems => !elems.isEmpty
  | .obj fields => !fields.isEmpty

/-- `datetime.fromisoformat(ts)` on a JSON value: succeeds only on a
parsable string; any other argument raises, which the caller swallows. -/
def tryParseTsJ : Json → Option Nat
  | .scalar (.str s) => parseIsoDatetime s
  | _ => Option.none

/-- Timestamp-normalization step of the JSON loader loops, over a JSON
object (`load_json.py` lines 39–44, 46–51, 53–58): the failing parse is
inside the per-record `try`, so this never raises. -/
def normTsJ (r : List (String × Json)) : List (String × Json) :=
  let ts := (lookupJ r "timestamp").getD (Json.scalar Value.none)
  if truthyJ ts then
    match tryParseTsJ ts with
    | some d => setKeyValJ r "timestamp" (Json.scalar (Value.dt d))
    | Option.none => r
  else r

/-- Heart-rate rename over a JSON object (`load_json.py` lines 37–38). -/
def renameBpmJ (r : List (String × Json)) : List (String × Json) :=
  match lookupJ r "bpm", lookupJ r "heart_rate_bpm" with
  | some v, Option.none => eraseKeyJ "bpm" r ++ [("heart_rate_bpm", v)]
  | _, _ => r

/-- One iteration of the heart-rate loop on an arbitrary element: a dict is
normalized; a non-iterable scalar raises `TypeError` at `"bpm" in r`; a
string passes the containment tests but raises `AttributeError` at
`r.pop`/`r.get`; a list raises `TypeError` at `list.pop("bpm")` when the
rename fires, `AttributeError` at `r.get` otherwise. -/
def normalizeHrJson : Json → Except PyError Json
  | .obj fields => .ok (Json.obj (normTsJ (renameBpmJ fields)))
  | .scalar (.str _) => .error .attributeError
  | .arr elems =>
    if elems.any (isStrEq "bpm") && !(elems.any (isStrEq "heart_rate_bpm")) then
      .error .typeError
    else .error .attributeError
  | .scalar _ => .error .typeError

/-- One iteration of the steps/sleep loops: a dict is normalized; every
non-dict raises `AttributeError` at `r.get("timestamp")`. -/
def normalizeRowJson : Json → Except PyError Json
  | .obj fields => .ok (Json.obj (normTsJ fields))
  | _ => .error .attributeError

/-- Error-propagating bind: the first uncaught exception aborts the loader. -/
def exBind {α β : Type} (x : Except PyError α) (f : α → Except PyError β) :
    Except PyError β :=
  match x with
  | .error e => .error e
  | .ok a => f a

/-- A `for` loop over the elements: the first raising element aborts. -/
def mapExcept (f : Json → Except PyError Json) :
    List Json → Except PyError (List Json)
  | [] => .ok []
  | x :: xs =>
    exBind (f x) fun y =>
    exBind (mapExcept f xs) fun ys =>
    .ok (y :: ys)

/-- Result of a successful JSON-loader run: one collection of (normalized)
JSON records per dataset kind. -/
structure JsonFrames where
  heart_rate : List Json
  steps : List Json
  sleep : List Json

/-- JSON loader (`load_json.py`, pandas-absent path): a missing or
syntactically unparsable file (`Option.none`) yields empty collections for
all three kinds; otherwise the document is consumed exactly in source
order — `list(blob.get(...))` for the three data keys, then the three
normalization loops — and any shape error surfaces as the uncaught
exception. -/
def loadFitnessJson (readResult : Option Json) : Except PyError JsonFrames :=
  match readResult with
  | Option.none => .ok ⟨[], [], []⟩
  | some blob =>
    exBind (jsonGet blob "heart_rate_data") fun hrV =>
    exBind (pyListOf hrV) fun hrRaw =>
    exBind (jsonGet blob "step_data") fun stV =>
    exBind (pyListOf stV) fun stRaw =>
    exBind (jsonGet blob "sleep_data") fun slV =>
    exBind (pyListOf slV) fun slRaw =>
    exBind (mapExcept normalizeHrJson hrRaw) fun hr =>
    exBind (mapExcept normalizeRowJson stRaw) fun steps =>
    exBind (mapExcept normalizeRowJson slRaw) fun sleep =>
    .ok ⟨hr, steps, sleep⟩

/-- Whether a JSON element is a dict record. -/
def isObjRec : Json → Bool
  | .obj _ => true
  | _ => false

/-- Whether a data-key value is an array of dicts. -/
def dataArrayOk : Json → Bool
  | .arr elems => elems.all isObjRec
  | _ => false

/-- Well-shaped document: a dict whose data keys, when present, hold arrays
of dicts (other keys are never touched by the loader). -/
def wellShapedBlob : Json → Bool
  | .obj fields => fields.all (fun p =>
      if p.1 = "heart_rate_data" ∨ p.1 = "step_data" ∨ p.1 = "sleep_data" then
        dataArrayOk p.2
      else true)
  | _ => false

/-! ### Deduplication (`data_load_pipeline.py` lines 62–71) -/

/-- Lexicographic strict order on character lists by code point — the
order Python uses on strings. -/
def charsLt : List Char → List Char → Bool
  | [], [] => false
  | [], _ :: _ => true
  | _ :: _, [] => false
  | c :: cs, d :: ds =>
    if c.toNat < d.toNat then true
    else if d.toNat < c.toNat then false
    else charsLt cs ds

/-- Python `<` on strings. -/
def strLt (s t : String) : Bool := charsLt s.data t.data

/-- Stable insertion of an item into a key-sorted item list, by key string.
Models Python `sorted(item.items())`, which on dict items (distinct keys)
orders by the key string alone. -/
def insItem (p : String × Value) : List (String × Value) → List (String × Value)
  | [] => [p]
  | q :: qs => if strLt q.1 p.1 then q :: insItem p qs else p :: q :: qs

/-- `tuple(sorted(item.items()))`: the canonical form of a record used as the
dedup key.  Two dict-derived records are exact field-for-field duplicates
(field order ignored) iff their keys are equal. -/
def recKey (r : Rec) : List (String × Value) := List.foldr insItem [] r

/-- Dedup loop with its `seen` set: keep a record iff its key is unseen. -/
def dedupAux (seen : List (List (String × Value))) : List Rec → List Rec
  | [] => []
  | r :: rs =>
    if recKey r ∈ seen then dedupAux seen rs
    else r :: dedupAux (recKey r :: seen) rs

/-- Exact-duplicate removal over the concatenated list, first occurrence kept. -/
def pyDedup (l : List Rec) : List Rec := dedupAux [] l

/-- The `seen` set after the dedup loop has processed `l` starting from `seen`. -/
def seenAfter (seen : List (List (String × Value))) (l : List Rec) :
    List (List (String × Value)) :=
  l.foldl (fun s r => if recKey r ∈ s then s else recKey r :: s) seen

/-! ### Timestamp sort (`data_load_pipeline.py` lines 72–76)

`deduped.sort(key=lambda r: r.get("timestamp"))` inside `try/except`.
The CPython sort is stable and uses only `<` on the keys; values of distinct
kinds (and `None` against anything, itself included) raise `TypeError`.
When every key comparison is defined the sort completes as the unique stable
ascending sort; when the key list mixes kinds (or is all-`None`), run
detection hits an undefined adjacent comparison and the swallowed exception
abandons the sort.  The model returns the list unchanged in that branch;
CPython guarantees the aborted list is a permutation of its input (and is
untouched when the very first comparison raises, in particular when no key
comparison at all is defined), so every theorem below either stays in the
all-defined regime, the no-comparison-defined regime, or is
permutation-invariant. -/

/-- Python `<` on sort keys: defined within one kind, a `TypeError` (here
`Option.none`) across kinds and on `None`. -/
def pyLt : Value → Value → Option Bool
  | .str a, .str b => some (strLt a b)
  | .int a, .int b => some (decide (a < b))
  | .float a b, .float c d => some (decide (a * Int.ofNat d < c * Int.ofNat b))
  | .dt a, .dt b => some (decide (a < b))
  | _, _ => Option.none

def pyLtB (v w : Value) : Bool := (pyLt v w).getD false

/-- Sort key of a record: `r.get("timestamp")`. -/
def tsVal (r : Rec) : Value := getVal r "timestamp"

/-- Stable insertion by the Python key order: `x` goes before the first `y`
that is not strictly below it. -/
def insRec (x : Rec) : List Rec → List Rec
  | [] => [x]
  | y :: ys => if pyLtB (tsVal y) (tsVal x) then y :: insRec x ys else x :: y :: ys

/-- Stable ascending sort by timestamp key (the result the CPython stable sort
produces when every comparison is defined). -/
def insSortRec (l : List Rec) : List Rec := l.foldr insRec []

/-- Whether the sort completes: every key comparable with the first, which
for the per-kind comparability of `pyLt` means all keys of one kind. -/
def sortKeysOk : List Rec → Bool
  | [] => true
  | r :: rs => rs.all (fun s => (pyLt (tsVal r) (tsVal s)).isSome)

/-- The guarded sort: the stable sort when it completes, the input otherwise
(exception swallowed by `except Exception: pass`). -/
def pySortTs (l : List Rec) : List Rec :=
  if sortKeysOk l then insSortRec l else l

/-! ### Merge (`data_load_pipeline.py` `_combine` list path and `load_pipeline`) -/

/-- `_combine` on two list collections: an empty side returns the other
unchanged; otherwise concatenate, dedup, and attempt the timestamp sort. -/
def pyCombine (a b : List Rec) : List Rec :=
  if a.isEmpty then b
  else if b.isEmpty then a
  else pySortTs (pyDedup (a ++ b))

/-- The `prefer` selector of `load_pipeline` (`csv` = prefer_a,
`json` = prefer_b, `both` = union). -/
inductive Prefer where
  | csv
  | json
  | both
deriving DecidableEq

/-- Per-kind merge dispatch (`load_pipeline` lines 101–106). -/
def mergePolicy (p : Prefer) (cdf jdf : List Rec) : List Rec :=
  match p with
  | .csv => if cdf.isEmpty then jdf else cdf
  | .json => if jdf.isEmpty then cdf else jdf
  | .both => pyCombine cdf jdf

/-! ### Derived notions used by the claims -/

/-- Field names of a record, in insertion order. -/
def fieldsOf (r : Rec) : List String := List.map Prod.fst r

/-- Multiset of all field names appearing on any record of a collection;
membership is the field set of the collection. -/
def collFields (l : List Rec) : List String := (l.map fieldsOf).flatten

/-- A collection with no two exact field-for-field duplicate records. -/
def noDupRecords (l : List Rec) : Prop := (l.map recKey).Nodup

instance (l : List Rec) : Decidable (noDupRecords l) := by
  unfold noDupRecords; infer_instance

/-- Numeric reading of a parsed-instant value, total by defaulting to `0`. -/
def vNat : Value → Nat
  | .dt n => n
  | _ => 0

/-- Numeric reading of the timestamp key of a record;
meaningful on records whose key is a parsed instant. -/
def tsNat (r : Rec) : Nat := vNat (tsVal r)

/-- Boolean test that the sort key of a record is a parsed instant. -/
def isDt : Value → Bool
  | .dt _ => true
  | _ => false

/-! ### Concrete records used for scenario checks -/

/-- Raw JSON heart-rate record of the round-trip scenario. -/
def hrSample : Rec :=
  [("timestamp", Value.str "2024-01-01T08:00:00"), ("bpm", Value.int 72),
   ("confidence", Value.float 9 10)]

/-- CSV steps record at minute 0 of the disjoint-union scenario. -/
def stepsCsvRec : Rec := [("timestamp", Value.dt 20240101000000), ("steps", Value.int 5)]

/-- JSON steps record at minute 1 of the disjoint-union scenario. -/
def stepsJsonRec : Rec := [("timestamp", Value.dt 20240101000100), ("steps", Value.int 3)]

/-- Record whose timestamp is the unparsable string "a". -/
def strRecA : Rec := [("timestamp", Value.str "a")]

/-- Record whose timestamp is the unparsable string "b". -/
def strRecB : Rec := [("timestamp", Value.str "b")]

/-- Timestampless record, duplicated in some scenarios. -/
def dupRec : Rec := [("steps", Value.int 5)]

/-- Record carrying a `confidence` field. -/
def confRec : Rec := [("timestamp", Value.dt 20240101000000), ("confidence", Value.float 9 10)]

/-- Record lacking the `confidence` field. -/
def noConfRec : Rec := [("timestamp", Value.dt 20240101000100)]

/-- Record with a present, non-empty, unparsable timestamp. -/
def badTsRec : Rec := [("timestamp", Value.str "not-a-date"), ("heart_rate_bpm", Value.int 70)]

/-- Well-shaped JSON document with one heart-rate record. -/
def goodBlob : Json :=
  Json.obj [("heart_rate_data", Json.arr
    [Json.obj [("timestamp", Json.scalar (Value.str "2024-01-01T08:00:00")),
               ("bpm", Json.scalar (Value.int 72))]])]

/-! ## Lemmas about lookups -/

theorem lookup_eraseKey_ne (r : Rec) (k k' : String) (h : k' ≠ k) :
    lookupVal (eraseKey k' r) k = lookupVal r k := by
  induction r with
  | nil => rfl
  | cons p rest ih =>
    obtain ⟨k₀, v⟩ := p
    by_cases h0 : k₀ = k'
    · subst h0
      simp [eraseKey, lookupVal, h]
    · simp only [eraseKey, if_neg h0]
      by_cases h1 : k₀ = k
      · simp [lookupVal, h1]
      · simp [lookupVal, h1, ih]

theorem lookup_append (l₁ l₂ : Rec) (k : String) :
    lookupVal (l₁ ++ l₂) k =
      match lookupVal l₁ k with
      | some v => some v
      | Option.none => lookupVal l₂ k := by
  induction l₁ with
  | nil => rfl
  | cons p rest ih =>
    obtain ⟨k₀, v⟩ := p
    by_cases h : k₀ = k
    · simp [lookupVal, h]
    · simp [lookupVal, h, ih]

theorem lookup_none_of_not_mem_fields (r : Rec) (k : String) (h : k ∉ fieldsOf r) :
    lookupVal r k = Option.none := by
  induction r with
  | nil => rfl
  | cons p rest ih =>
    obtain ⟨k₀, v⟩ := p
    simp only [fieldsOf, List.map_cons, List.mem_cons, not_or] at h
    have hk : ¬ k₀ = k := fun hh => h.1 (Eq.symm hh)
    simp only [lookupVal, if_neg hk]
    exact ih (by simpa [fieldsOf] using h.2)

theorem lookup_eraseKey_self (r : Rec) (k : String) (h : (fieldsOf r).Nodup) :
    lookupVal (eraseKey k r) k = Option.none := by
  induction r with
  | nil => rfl
  | cons p rest ih =>
    obtain ⟨k₀, v⟩ := p
    simp only [fieldsOf, List.map_cons, List.nodup_cons] at h
    by_cases h0 : k₀ = k
    · subst h0
      simpa [eraseKey] using lookup_none_of_not_mem_fields rest k₀ h.1
    · simp [eraseKey, h0, lookupVal, ih h.2]

theorem lookup_setKeyVal_ne (r : Rec) (k k' : String) (v : Value) (h : k' ≠ k) :
    lookupVal (setKeyVal r k' v) k = lookupVal r k := by
  induction r with
  | nil => rfl
  | cons p rest ih =>
    obtain ⟨k₀, v₀⟩ := p
    by_cases h0 : k₀ = k'
    · have hs : setKeyVal ((k₀, v₀) :: rest) k' v = (k', v) :: setKeyVal rest k' v := by
        simp [setKeyVal, h0]
      rw [hs]
      have hk₀ : ¬ k₀ = k := fun hh => h (h0.symm.trans hh)
      have hk' : ¬ k' = k := h
      simp [lookupVal, hk', hk₀, ih]
    · have hs : setKeyVal ((k₀, v₀) :: rest) k' v = (k₀, v₀) :: setKeyVal rest k' v := by
        simp [setKeyVal, h0]
      rw [hs]
      by_cases h1 : k₀ = k
      · simp [lookupVal, h1]
      · simp [lookupVal, h1, ih]

theorem lookup_normTs_ne (r : Rec) (k : String) (h : k ≠ "timestamp") :
    lookupVal (normTs r) k = lookupVal r k := by
  unfold normTs
  by_cases ht : truthy (getVal r "timestamp")
  · simp only [ht, if_true]
    cases hp : tryParseTs (getVal r "timestamp") with
    | none => rfl
    | some d => exact lookup_setKeyVal_ne r k "timestamp" (Value.dt d) (Ne.symm h)
  · simp [ht]

/-! ## Lemmas about the canonical dedup key -/

theorem insItem_perm (p : String × Value) (l : List (String × Value)) :
    List.Perm (insItem p l) (p :: l) := by
  induction l with
  | nil => exact List.Perm.refl _
  | cons q qs ih =>
    by_cases h : strLt q.1 p.1 = true
    · simp only [insItem, if_pos h]
      exact (ih.cons q).trans (List.Perm.swap p q qs)
    · simp only [insItem, if_neg h]
      exact List.Perm.refl _

theorem recKey_perm (r : Rec) : List.Perm (recKey r) r := by
  induction r with
  | nil => exact List.Perm.refl _
  | cons p rest ih =>
    exact (insItem_perm p (recKey rest)).trans (ih.cons p)

theorem fields_mem_of_recKey_eq {r s : Rec} (h : recKey r = recKey s) (k : String) :
    k ∈ fieldsOf r ↔ k ∈ fieldsOf s := by
  have hr := (recKey_perm r).map Prod.fst
  have hs := (recKey_perm s).map Prod.fst
  constructor
  · intro hk
    exact hs.mem_iff.mp (h ▸ hr.symm.mem_iff.mp (by simpa [fieldsOf] using hk))
  · intro hk
    exact hr.mem_iff.mp (h ▸ hs.symm.mem_iff.mp (by simpa [fieldsOf] using hk))

/-! ## Lemmas about deduplication -/

theorem dedupAux_sublist (seen : List (List (String × Value))) (l : List Rec) :
    List.Sublist (dedupAux seen l) l := by
  induction l generalizing seen with
  | nil => exact List.Sublist.refl _
  | cons r rs ih =>
    by_cases h : recKey r ∈ seen
    · simp only [dedupAux, if_pos h]
      exact (ih seen).cons r
    · simp only [dedupAux, if_neg h]
      exact (ih (recKey r :: seen)).cons₂ r

theorem dedupAux_key_mem (seen : List (List (String × Value))) (l : List Rec)
    (k : List (String × Value)) :
    k ∈ (dedupAux seen l).map recKey ↔ k ∉ seen ∧ k ∈ l.map recKey := by
  induction l generalizing seen with
  | nil => simp [dedupAux]
  | cons r rs ih =>
    by_cases h : recKey r ∈ seen
    · simp only [dedupAux, if_pos h, List.map_cons, List.mem_cons]
      rw [ih seen]
      constructor
      · rintro ⟨hns, hm⟩
        exact ⟨hns, Or.inr hm⟩
      · rintro ⟨hns, hm | hm⟩
        · exact absurd (hm ▸ h) hns
        · exact ⟨hns, hm⟩
    · simp only [dedupAux, if_neg h, List.map_cons, List.mem_cons]
      rw [ih (recKey r :: seen)]
      constructor
      · rintro (he | ⟨hns, hm⟩)
        · exact ⟨he ▸ h, Or.inl he⟩
        · exact ⟨fun hx => hns (List.mem_cons_of_mem _ hx), Or.inr hm⟩
      · rintro ⟨hns, he | hm⟩
        · exact Or.inl he
        · by_cases he : k = recKey r
          · exact Or.inl he
          · exact Or.inr ⟨by simp [he, hns], hm⟩

theorem dedupAux_keys_nodup (seen : List (List (String × Value))) (l : List Rec) :
    ((dedupAux seen l).map recKey).Nodup := by
  induction l generalizing seen with
  | nil => simp [dedupAux]
  | cons r rs ih =>
    by_cases h : recKey r ∈ seen
    · simp only [dedupAux, if_pos h]
      exact ih seen
    · simp only [dedupAux, if_neg h, List.map_cons, List.nodup_cons]
      refine ⟨fun hm => ?_, ih (recKey r :: seen)⟩
      exact ((dedupAux_key_mem _ _ _).mp hm).1 (List.mem_cons_self _ _)

theorem seenAfter_mem (seen : List (List (String × Value))) (a : List Rec)
    (k : List (String × Value)) :
    k ∈ seenAfter seen a ↔ k ∈ seen ∨ k ∈ a.map recKey := by
  induction a generalizing seen with
  | nil => simp [seenAfter]
  | cons r rs ih =>
    show k ∈ seenAfter (if recKey r ∈ seen then seen else recKey r :: seen) rs ↔ _
    rw [ih]
    by_cases h : recKey r ∈ seen
    · simp only [if_pos h, List.map_cons, List.mem_cons]
      constructor
      · rintro (hs | hm)
        · exact Or.inl hs
        · exact Or.inr (Or.inr hm)
      · rintro (hs | he | hm)
        · exact Or.inl hs
        · exact Or.inl (he ▸ h)
        · exact Or.inr hm
    · simp only [if_neg h, List.mem_cons, List.map_cons]
      tauto

theorem seenAfter_cons (seen : List (List (String × Value))) (r : Rec) (rs : List Rec) :
    seenAfter seen (r :: rs)
      = seenAfter (if recKey r ∈ seen then seen else recKey r :: seen) rs := rfl

theorem dedupAux_append (seen : List (List (String × Value))) (a b : List Rec) :
    dedupAux seen (a ++ b) = dedupAux seen a ++ dedupAux (seenAfter seen a) b := by
  induction a generalizing seen with
  | nil => rfl
  | cons r rs ih =>
    rw [List.cons_append, seenAfter_cons]
    by_cases h : recKey r ∈ seen
    · simp only [dedupAux, if_pos h]
      exact ih seen
    · simp only [dedupAux, if_neg h, List.cons_append]
      rw [ih (recKey r :: seen)]

theorem dedupAux_nil_of_all_seen (seen : List (List (String × Value))) (l : List Rec)
    (h : ∀ r ∈ l, recKey r ∈ seen) : dedupAux seen l = [] := by
  induction l with
  | nil => rfl
  | cons r rs ih =>
    simp only [dedupAux, if_pos (h r (List.mem_cons_self _ _))]
    exact ih fun s hs => h s (List.mem_cons_of_mem _ hs)

/-! ## Lemmas about the timestamp sort -/

theorem pyLt_none_left (w : Value) : pyLt Value.none w = Option.none := by
  cases w <;> rfl

theorem pyLt_isSome_of_dt {v w : Value} (hv : isDt v = true) (hw : isDt w = true) :
    (pyLt v w).isSome = true := by
  cases v <;> cases w <;> simp_all [isDt, pyLt]

theorem pyLtB_dt {v w : Value} (hv : isDt v = true) (hw : isDt w = true) :
    pyLtB v w = decide (vNat v < vNat w) := by
  cases v <;> cases w <;> simp_all [isDt, pyLtB, pyLt, vNat]

theorem insRec_perm (x : Rec) (l : List Rec) : List.Perm (insRec x l) (x :: l) := by
  induction l with
  | nil => exact List.Perm.refl _
  | cons y ys ih =>
    by_cases h : pyLtB (tsVal y) (tsVal x) = true
    · simp only [insRec, if_pos h]
      exact (ih.cons y).trans (List.Perm.swap x y ys)
    · simp only [insRec, if_neg h]
      exact List.Perm.refl _

theorem insSortRec_perm (l : List Rec) : List.Perm (insSortRec l) l := by
  induction l with
  | nil => exact List.Perm.refl _
  | cons x xs ih =>
    exact (insRec_perm x (insSortRec xs)).trans (ih.cons x)

theorem pySortTs_perm (l : List Rec) : List.Perm (pySortTs l) l := by
  unfold pySortTs
  by_cases h : sortKeysOk l = true
  · simpa [h] using insSortRec_perm l
  · simp [h]

theorem insRec_sorted (x : Rec) (l : List Rec) (hx : isDt (tsVal x) = true)
    (hl : ∀ y ∈ l, isDt (tsVal y) = true)
    (hs : List.Pairwise (fun r s => tsNat r ≤ tsNat s) l) :
    List.Pairwise (fun r s => tsNat r ≤ tsNat s) (insRec x l) := by
  induction l with
  | nil => simp [insRec]
  | cons y ys ih =>
    have hy : isDt (tsVal y) = true := hl y (List.mem_cons_self _ _)
    rw [List.pairwise_cons] at hs
    by_cases h : pyLtB (tsVal y) (tsVal x) = true
    · have hlt : tsNat y < tsNat x := by
        have hd := pyLtB_dt hy hx
        rw [h] at hd
        exact of_decide_eq_true hd.symm
      simp only [insRec, if_pos h]
      rw [List.pairwise_cons]
      refine ⟨fun z hz => ?_, ih (fun z hz => hl z (List.mem_cons_of_mem _ hz)) hs.2⟩
      rcases List.mem_cons.mp ((insRec_perm x ys).mem_iff.mp hz) with hz | hz
      · exact hz ▸ Nat.le_of_lt hlt
      · exact hs.1 z hz
    · have hf : pyLtB (tsVal y) (tsVal x) = false := by
        cases hb : pyLtB (tsVal y) (tsVal x) with
        | true => exact absurd hb h
        | false => rfl
      have hle : tsNat x ≤ tsNat y := by
        have hd : decide (vNat (tsVal y) < vNat (tsVal x)) = false := by
          rw [← pyLtB_dt hy hx]
          exact hf
        exact Nat.le_of_not_lt (of_decide_eq_false hd)
      simp only [insRec, if_neg h]
      rw [List.pairwise_cons]
      refine ⟨fun z hz => ?_, List.pairwise_cons.mpr hs⟩
      rcases List.mem_cons.mp hz with hz | hz
      · exact hz ▸ hle
      · exact Nat.le_trans hle (hs.1 z hz)

theorem insSortRec_sorted (l : List Rec) (hl : ∀ r ∈ l, isDt (tsVal r) = true) :
    List.Pairwise (fun r s => tsNat r ≤ tsNat s) (insSortRec l) := by
  induction l with
  | nil => simp [insSortRec]
  | cons x xs ih =>
    refine insRec_sorted x (insSortRec xs) (hl x (List.mem_cons_self _ _))
      (fun y hy => hl y (List.mem_cons_of_mem _ ((insSortRec_perm xs).mem_iff.mp hy)))
      (ih fun r hr => hl r (List.mem_cons_of_mem _ hr))

theorem insRec_filter (t : Nat) (x : Rec) (l : List Rec) (hx : isDt (tsVal x) = true)
    (hl : ∀ y ∈ l, isDt (tsVal y) = true) :
    (insRec x l).filter (fun r => tsNat r == t) =
      if tsNat x == t then x :: l.filter (fun r => tsNat r == t)
      else l.filter (fun r => tsNat r == t) := by
  induction l with
  | nil =>
    by_cases px : tsNat x = t <;> simp [insRec, List.filter_cons, px]
  | cons y ys ih =>
    have hy : isDt (tsVal y) = true := hl y (List.mem_cons_self _ _)
    have ih' := ih (fun z hz => hl z (List.mem_cons_of_mem _ hz))
    by_cases h : pyLtB (tsVal y) (tsVal x) = true
    · have hlt : tsNat y < tsNat x := by
        have hd := pyLtB_dt hy hx
        rw [h] at hd
        exact of_decide_eq_true hd.symm
      simp only [insRec, if_pos h, List.filter_cons]
      by_cases px : tsNat x = t
      · have py : tsNat y ≠ t := by omega
        simp [px, py, ih']
      · simp [px, ih']
    · simp only [insRec, if_neg h, List.filter_cons]

theorem insSortRec_filter (l : List Rec) (hl : ∀ r ∈ l, isDt (tsVal r) = true) (t : Nat) :
    (insSortRec l).filter (fun r => tsNat r == t) = l.filter (fun r => tsNat r == t) := by
  induction l with
  | nil => rfl
  | cons x xs ih =>
    have step := insRec_filter t x (insSortRec xs) (hl x (List.mem_cons_self _ _))
      (fun y hy => hl y (List.mem_cons_of_mem _ ((insSortRec_perm xs).mem_iff.mp hy)))
    show (insRec x (insSortRec xs)).filter _ = _
    rw [step, ih (fun r hr => hl r (List.mem_cons_of_mem _ hr)), List.filter_cons]

theorem sortKeysOk_of_allDt (l : List Rec) (hl : ∀ r ∈ l, isDt (tsVal r) = true) :
    sortKeysOk l = true := by
  cases l with
  | nil => rfl
  | cons r rs =>
    simp only [sortKeysOk, List.all_eq_true]
    exact fun s hs =>
      pyLt_isSome_of_dt (hl r (List.mem_cons_self _ _)) (hl s (List.mem_cons_of_mem _ hs))

theorem pySortTs_allNone (l : List Rec) (h : ∀ r ∈ l, tsVal r = Value.none) :
    pySortTs l = l := by
  match l with
  | [] => rfl
  | [r] => simp [pySortTs, sortKeysOk, insSortRec, insRec]
  | r1 :: r2 :: rs =>
    have h1 : tsVal r1 = Value.none := h r1 (by simp)
    have hko : sortKeysOk (r1 :: r2 :: rs) = false := by
      simp [sortKeysOk, h1, pyLt_none_left]
    simp [pySortTs, hko]

/-! ## Lemmas about `_combine` -/

theorem pyDedup_eq (l : List Rec) : pyDedup l = dedupAux [] l := rfl

theorem isEmpty_false_of_ne_nil {α : Type} {l : List α} (h : l ≠ []) :
    l.isEmpty = false := by
  cases l with
  | nil => exact absurd rfl h
  | cons x xs => rfl

theorem pyCombine_nonempty (a b : List Rec) (ha : a ≠ []) (hb : b ≠ []) :
    pyCombine a b = pySortTs (pyDedup (a ++ b)) := by
  unfold pyCombine
  rw [isEmpty_false_of_ne_nil ha, isEmpty_false_of_ne_nil hb]
  rfl

theorem pyCombine_key_mem (a b : List Rec) (k : List (String × Value)) :
    k ∈ (pyCombine a b).map recKey ↔ k ∈ (a ++ b).map recKey := by
  by_cases ha : a = []
  · subst ha
    simp [pyCombine]
  · by_cases hb : b = []
    · subst hb
      unfold pyCombine
      rw [isEmpty_false_of_ne_nil ha]
      simp
    · rw [pyCombine_nonempty a b ha hb]
      rw [((pySortTs_perm (pyDedup (a ++ b))).map recKey).mem_iff, pyDedup_eq,
        dedupAux_key_mem]
      simp

theorem mem_collFields (l : List Rec) (k : String) :
    k ∈ collFields l ↔ ∃ r ∈ l, k ∈ fieldsOf r := by
  simp [collFields, List.mem_flatten]

/-! ## Lemmas about the JSON loader -/

theorem lookupJ_mem (l : List (String × Json)) (k : String) (v : Json)
    (h : lookupJ l k = some v) : (k, v) ∈ l := by
  induction l with
  | nil => exact absurd h (by simp [lookupJ])
  | cons p rest ih =>
    obtain ⟨k₀, v₀⟩ := p
    by_cases h0 : k₀ = k
    · subst h0
      have hv : v₀ = v := by simpa [lookupJ] using h
      subst hv
      exact List.mem_cons_self _ _
    · simp only [lookupJ, if_neg h0] at h
      exact List.mem_cons_of_mem _ (ih h)

theorem mapExcept_ok (f : Json → Except PyError Json) :
    ∀ xs : List Json, (∀ x ∈ xs, ∃ y, f x = Except.ok y) →
      ∃ ys, mapExcept f xs = Except.ok ys := by
  intro xs
  induction xs with
  | nil => exact fun _ => ⟨[], rfl⟩
  | cons a l ih =>
    intro h
    obtain ⟨y, hy⟩ := h a (List.mem_cons_self _ _)
    obtain ⟨ys, hys⟩ := ih (fun x hx => h x (List.mem_cons_of_mem _ hx))
    exact ⟨y :: ys, by simp [mapExcept, exBind, hy, hys]⟩

theorem wellShaped_dataKey (fields : List (String × Json)) (k : String)
    (hws : wellShapedBlob (Json.obj fields) = true)
    (hk : k = "heart_rate_data" ∨ k = "step_data" ∨ k = "sleep_data") :
    ∃ elems : List Json,
      jsonGet (Json.obj fields) k = Except.ok (Json.arr elems) ∧
      ∀ e ∈ elems, isObjRec e = true := by
  simp only [wellShapedBlob, List.all_eq_true] at hws
  cases hlk : lookupJ fields k with
  | none =>
    refine ⟨[], by simp [jsonGet, hlk], by simp⟩
  | some v =>
    have hp := hws (k, v) (lookupJ_mem fields k v hlk)
    rw [if_pos hk] at hp
    cases v with
    | scalar v' => simp [dataArrayOk] at hp
    | obj f' => simp [dataArrayOk] at hp
    | arr elems =>
      refine ⟨elems, by simp [jsonGet, hlk], ?_⟩
      simpa [dataArrayOk, List.all_eq_true] using hp

/-! ## Claim theorems

Each theorem below settles one claim of the specification against the
embedded pipeline. -/

/-- C3: for every pair of collections, `prefer="csv"` returns the CSV
collection when it is non-empty and falls back to the JSON collection when
it is empty, and symmetrically for `prefer="json"` — never an
empty-trumping result. -/
theorem prefer_fallback_laws (a b : List Rec) :
    (a ≠ [] → mergePolicy Prefer.csv a b = a) ∧
    (a = [] → mergePolicy Prefer.csv a b = b) ∧
    (b ≠ [] → mergePolicy Prefer.json a b = b) ∧
    (b = [] → mergePolicy Prefer.json a b = a) := by
  refine ⟨fun ha => ?_, fun ha => ?_, fun hb => ?_, fun hb => ?_⟩
  · show (if a.isEmpty then b else a) = a
    rw [isEmpty_false_of_ne_nil ha]
    rfl
  · subst ha
    rfl
  · show (if b.isEmpty then a else b) = b
    rw [isEmpty_false_of_ne_nil hb]
    rfl
  · subst hb
    rfl

/-- Witness for C3 at concrete collections. -/
theorem prefer_fallback_witness :
    mergePolicy Prefer.csv [dupRec] [stepsJsonRec] = [dupRec] ∧
    mergePolicy Prefer.csv [] [stepsJsonRec] = [stepsJsonRec] :=
  ⟨(prefer_fallback_laws [dupRec] [stepsJsonRec]).1 (List.cons_ne_nil _ _),
   (prefer_fallback_laws [] [stepsJsonRec]).2.1 rfl⟩

/-- C7: merging a collection with itself under the union policy yields
exactly the distinct records of that collection, every group of exact
duplicates collapsed to its first occurrence. -/
theorem union_idempotent (a : List Rec) :
    List.Perm (mergePolicy Prefer.both a a) (pyDedup a) := by
  by_cases ha : a = []
  · subst ha
    exact List.Perm.refl _
  · show List.Perm (pyCombine a a) (pyDedup a)
    rw [pyCombine_nonempty a a ha ha]
    have h1 : pyDedup (a ++ a) = pyDedup a := by
      rw [pyDedup_eq, pyDedup_eq, dedupAux_append,
        dedupAux_nil_of_all_seen (seenAfter [] a) a
          (fun r hr => (seenAfter_mem [] a (recKey r)).mpr
            (Or.inr (List.mem_map_of_mem recKey hr)))]
      simp
    rw [h1]
    exact pySortTs_perm _

/-- C8: the union merge is commutative on content — a record (identified by
its full field/value set) occurs in `merge(A, B, union)` iff it occurs in
`merge(B, A, union)`. -/
theorem union_commutative_content (a b : List Rec) (k : List (String × Value)) :
    k ∈ (mergePolicy Prefer.both a b).map recKey
      ↔ k ∈ (mergePolicy Prefer.both b a).map recKey := by
  show k ∈ (pyCombine a b).map recKey ↔ k ∈ (pyCombine b a).map recKey
  rw [pyCombine_key_mem, pyCombine_key_mem, List.map_append, List.map_append,
    List.mem_append, List.mem_append]
  exact or_comm

/-- C4 (amended): the merged collection is free of exact field-for-field
duplicates whenever each input is (under every policy), and
unconditionally under the union policy with two non-empty inputs; the
prefer policies and the empty-input union cases return one input unchanged,
so internal duplicates of that input survive. -/
theorem merge_nodup_amended (p : Prefer) (a b : List Rec) :
    (noDupRecords a → noDupRecords b → noDupRecords (mergePolicy p a b)) ∧
    (a ≠ [] → b ≠ [] → noDupRecords (mergePolicy Prefer.both a b)) := by
  have hboth : ∀ (c d : List Rec), c ≠ [] → d ≠ [] → noDupRecords (pyCombine c d) := by
    intro c d hc hd
    rw [noDupRecords, pyCombine_nonempty c d hc hd]
    exact ((pySortTs_perm (pyDedup (c ++ d))).map recKey).nodup_iff.mpr
      (dedupAux_keys_nodup [] (c ++ d))
  constructor
  · intro hA hB
    cases p with
    | csv =>
      show noDupRecords (if a.isEmpty then b else a)
      by_cases ha : a = []
      · subst ha
        exact hB
      · rw [isEmpty_false_of_ne_nil ha]
        exact hA
    | json =>
      show noDupRecords (if b.isEmpty then a else b)
      by_cases hb : b = []
      · subst hb
        exact hA
      · rw [isEmpty_false_of_ne_nil hb]
        exact hB
    | both =>
      by_cases ha : a = []
      · subst ha
        exact hB
      · by_cases hb : b = []
        · subst hb
          show noDupRecords (pyCombine a [])
          unfold pyCombine
          rw [isEmpty_false_of_ne_nil ha]
          exact hA
        · exact hboth a b ha hb
  · exact fun ha hb => hboth a b ha hb

/-- Counterexample for C4 as frozen: a prefer-policy merge returns the
chosen input unchanged, so a duplicated record in that input yields an
output containing two exact field-for-field duplicates. -/
theorem merge_dup_passthrough_cx :
    mergePolicy Prefer.csv [dupRec, dupRec] [] = [dupRec, dupRec] ∧
    ¬ noDupRecords (mergePolicy Prefer.csv [dupRec, dupRec] []) := by
  constructor
  · rfl
  · decide

/-- Witness for C4 (amended) at concrete collections. -/
theorem merge_nodup_witness :
    noDupRecords (mergePolicy Prefer.both [stepsCsvRec] [stepsJsonRec]) :=
  (merge_nodup_amended Prefer.both [stepsCsvRec] [stepsJsonRec]).2
    (List.cons_ne_nil _ _) (List.cons_ne_nil _ _)

/-- C1 (amended): for non-empty inputs, the deduplicated concatenation
preserves concatenation order (it is a sublist); when every record carries
a parsed-instant timestamp the union output is a permutation of it, sorted
ascending by timestamp, with records of equal timestamps keeping their
relative post-concatenation order (stable sort); when no record carries a
timestamp field the sort comparison fails at once and the output is the
deduplicated concatenation in order.  Unparsable (string) timestamps are
not kept in post-concatenation order: see the counterexample. -/
theorem combine_timestamp_order (a b : List Rec) :
    List.Sublist (pyDedup (a ++ b)) (a ++ b) ∧
    (a ≠ [] → b ≠ [] →
      (((a ++ b).all (fun r => isDt (tsVal r)) = true →
          List.Perm (pyCombine a b) (pyDedup (a ++ b)) ∧
          List.Pairwise (fun r s => tsNat r ≤ tsNat s) (pyCombine a b) ∧
          ∀ t : Nat, (pyCombine a b).filter (fun r => tsNat r == t)
            = (pyDedup (a ++ b)).filter (fun r => tsNat r == t)) ∧
        ((∀ r ∈ a ++ b, lookupVal r "timestamp" = Option.none) →
          pyCombine a b = pyDedup (a ++ b)))) := by
  refine ⟨dedupAux_sublist [] (a ++ b), fun ha hb => ⟨fun hall => ?_, fun hnone => ?_⟩⟩
  · rw [List.all_eq_true] at hall
    have hdt : ∀ r ∈ pyDedup (a ++ b), isDt (tsVal r) = true :=
      fun r hr => hall r ((dedupAux_sublist [] (a ++ b)).subset hr)
    have hco := pyCombine_nonempty a b ha hb
    have hsort : pySortTs (pyDedup (a ++ b)) = insSortRec (pyDedup (a ++ b)) := by
      rw [pySortTs, if_pos (sortKeysOk_of_allDt _ hdt)]
    refine ⟨?_, ?_, fun t => ?_⟩
    · rw [hco]
      exact pySortTs_perm _
    · rw [hco, hsort]
      exact insSortRec_sorted _ hdt
    · rw [hco, hsort]
      exact insSortRec_filter _ hdt t
  · have hvn : ∀ r ∈ pyDedup (a ++ b), tsVal r = Value.none := by
      intro r hr
      have hr2 := hnone r ((dedupAux_sublist [] (a ++ b)).subset hr)
      simp [tsVal, getVal, hr2]
    rw [pyCombine_nonempty a b ha hb, pySortTs_allNone _ hvn]

/-- Counterexample for C1 as frozen: two records whose timestamps are the
unparsable strings "b" and "a" (in that post-concatenation order) are
reordered by the union merge — the sort compares the raw strings — instead
of keeping their relative post-concatenation order. -/
theorem combine_unparsable_reorder_cx :
    parseIsoDatetime "a" = Option.none ∧ parseIsoDatetime "b" = Option.none ∧
    pyCombine [strRecB] [strRecA] = [strRecA, strRecB] ∧
    pyCombine [strRecB] [strRecA] ≠ [strRecB, strRecA] := by
  refine ⟨rfl, rfl, by decide, by decide⟩

/-- Witness for C1 (amended): the disjoint-union steps scenario, two
parsed-instant records, comes out sorted ascending by timestamp. -/
theorem combine_timestamp_order_witness :
    List.Pairwise (fun r s => tsNat r ≤ tsNat s) (pyCombine [stepsCsvRec] [stepsJsonRec]) :=
  (((combine_timestamp_order [stepsCsvRec] [stepsJsonRec]).2 (List.cons_ne_nil _ _)
    (List.cons_ne_nil _ _)).1 (by decide)).2.1

/-- C2 (amended): for non-empty inputs merged under the union policy, the
field set of the merged collection (union over its records) equals the
union of the field sets of the inputs, and no record is rejected for a
missing field — every input record survives up to exact duplicates; but in
the list-of-records path every output record is an input record unchanged,
so a record from a source lacking a field keeps that field absent rather
than acquiring it as null (null-filling happens only in the DataFrame
path). -/
theorem combine_fieldset_amended (a b : List Rec) (ha : a ≠ []) (hb : b ≠ []) :
    (∀ k, k ∈ collFields (pyCombine a b) ↔ (k ∈ collFields a ∨ k ∈ collFields b)) ∧
    (∀ r ∈ a ++ b, recKey r ∈ (pyCombine a b).map recKey) ∧
    (∀ s ∈ pyCombine a b, s ∈ a ++ b) := by
  have hsub : ∀ s ∈ pyCombine a b, s ∈ a ++ b := by
    intro s hs
    rw [pyCombine_nonempty a b ha hb] at hs
    exact (dedupAux_sublist [] (a ++ b)).subset ((pySortTs_perm _).mem_iff.mp hs)
  have hkeys : ∀ r ∈ a ++ b, recKey r ∈ (pyCombine a b).map recKey := by
    intro r hr
    rw [pyCombine_key_mem]
    exact List.mem_map_of_mem recKey hr
  refine ⟨fun k => ⟨fun hk => ?_, fun hk => ?_⟩, hkeys, hsub⟩
  · rcases (mem_collFields _ k).mp hk with ⟨s, hs, hks⟩
    rcases List.mem_append.mp (hsub s hs) with h | h
    · exact Or.inl ((mem_collFields _ k).mpr ⟨s, h, hks⟩)
    · exact Or.inr ((mem_collFields _ k).mpr ⟨s, h, hks⟩)
  · have hex : ∃ r ∈ a ++ b, k ∈ fieldsOf r := by
      rcases hk with hk | hk
      · rcases (mem_collFields _ k).mp hk with ⟨r, hr, hkr⟩
        exact ⟨r, List.mem_append.mpr (Or.inl hr), hkr⟩
      · rcases (mem_collFields _ k).mp hk with ⟨r, hr, hkr⟩
        exact ⟨r, List.mem_append.mpr (Or.inr hr), hkr⟩
    rcases hex with ⟨r, hr, hkr⟩
    rcases List.mem_map.mp (hkeys r hr) with ⟨s, hs, hrsk⟩
    exact (mem_collFields _ k).mpr ⟨s, hs, (fields_mem_of_recKey_eq hrsk k).mpr hkr⟩

/-- Counterexample for C2 as frozen: merging a record that carries
`confidence` with one that lacks it leaves the latter in the output without
the field — absent, not present-as-null — even though the field belongs to
the field set of the merged collection. -/
theorem combine_missing_field_cx :
    pyCombine [confRec] [noConfRec] = [confRec, noConfRec] ∧
    "confidence" ∈ collFields (pyCombine [confRec] [noConfRec]) ∧
    noConfRec ∈ pyCombine [confRec] [noConfRec] ∧
    "confidence" ∉ fieldsOf noConfRec := by
  refine ⟨by decide, by decide, by decide, by decide⟩

/-- Witness for C2 (amended) at concrete collections. -/
theorem combine_fieldset_witness :
    "confidence" ∈ collFields (pyCombine [confRec] [noConfRec]) :=
  ((combine_fieldset_amended [confRec] [noConfRec] (List.cons_ne_nil _ _)
    (List.cons_ne_nil _ _)).1 "confidence").mpr (Or.inl (by decide))

/-- C5 (amended): a CSV loader whose read fails for any reason, and the
JSON loader on a file that is absent or not syntactically valid JSON,
return the empty collection (all three kinds for JSON) without raising;
and on a well-shaped document — a dict whose data keys, when present, hold
arrays of dicts — the JSON loader never raises either.  But its `try`
covers only `open`+`json.load`, so valid JSON of the wrong shape raises an
uncaught exception: see the counterexample. -/
theorem loaders_degrade_empty_amended :
    (loadHeartRateCsv (Except.error ()) = [] ∧
     loadStepsCsv (Except.error ()) = [] ∧
     loadSleepCsv (Except.error ()) = [] ∧
     loadFitnessJson Option.none = Except.ok ⟨[], [], []⟩) ∧
    (∀ blob : Json, wellShapedBlob blob = true →
      ∃ fr : JsonFrames, loadFitnessJson (some blob) = Except.ok fr) := by
  refine ⟨⟨rfl, rfl, rfl, rfl⟩, fun blob hws => ?_⟩
  cases blob with
  | scalar v => simp [wellShapedBlob] at hws
  | arr es => simp [wellShapedBlob] at hws
  | obj fields =>
    obtain ⟨hrE, hhr, hhrO⟩ :=
      wellShaped_dataKey fields "heart_rate_data" hws (Or.inl rfl)
    obtain ⟨stE, hst, hstO⟩ :=
      wellShaped_dataKey fields "step_data" hws (Or.inr (Or.inl rfl))
    obtain ⟨slE, hsl, hslO⟩ :=
      wellShaped_dataKey fields "sleep_data" hws (Or.inr (Or.inr rfl))
    have hrOk : ∀ e ∈ hrE, ∃ y, normalizeHrJson e = Except.ok y := by
      intro e he
      have ho := hhrO e he
      cases e with
      | obj f => exact ⟨_, rfl⟩
      | scalar v => simp [isObjRec] at ho
      | arr es => simp [isObjRec] at ho
    have stOk : ∀ e ∈ stE, ∃ y, normalizeRowJson e = Except.ok y := by
      intro e he
      have ho := hstO e he
      cases e with
      | obj f => exact ⟨_, rfl⟩
      | scalar v => simp [isObjRec] at ho
      | arr es => simp [isObjRec] at ho
    have slOk : ∀ e ∈ slE, ∃ y, normalizeRowJson e = Except.ok y := by
      intro e he
      have ho := hslO e he
      cases e with
      | obj f => exact ⟨_, rfl⟩
      | scalar v => simp [isObjRec] at ho
      | arr es => simp [isObjRec] at ho
    obtain ⟨hr, hhrM⟩ := mapExcept_ok normalizeHrJson hrE hrOk
    obtain ⟨st, hstM⟩ := mapExcept_ok normalizeRowJson stE stOk
    obtain ⟨sl, hslM⟩ := mapExcept_ok normalizeRowJson slE slOk
    refine ⟨⟨hr, st, sl⟩, ?_⟩
    simp only [loadFitnessJson, hhr, hst, hsl, pyListOf, exBind, hhrM, hstM, hslM]

/-- Counterexample for C5 as frozen: three files whose content is valid
JSON of the wrong shape make the JSON loader raise an uncaught exception
instead of returning empty collections — a top-level array (`blob.get`
raises `AttributeError`), a data key holding the number 5 (`list(5)`
raises `TypeError`), and a data array containing the number 1
(`"bpm" in 1` raises `TypeError`). -/
theorem load_json_misshaped_cx :
    loadFitnessJson (some (Json.arr [])) = Except.error PyError.attributeError ∧
    loadFitnessJson (some (Json.obj [("heart_rate_data", Json.scalar (Value.int 5))]))
      = Except.error PyError.typeError ∧
    loadFitnessJson (some (Json.obj
        [("heart_rate_data", Json.arr [Json.scalar (Value.int 1)])]))
      = Except.error PyError.typeError :=
  ⟨rfl, rfl, rfl⟩

/-- Witness for C5 (amended): the well-shaped sample document loads
without raising. -/
theorem loaders_degrade_witness :
    ∃ fr : JsonFrames, loadFitnessJson (some goodBlob) = Except.ok fr :=
  loaders_degrade_empty_amended.2 goodBlob (by decide)

/-- C6: a record whose timestamp field is present, a non-empty string, and
not parsable as an ISO-8601 date-time is left untouched by the shared
timestamp-normalization step, keeps its raw timestamp string through the
heart-rate normalizer as well, and is never dropped from a normalized
collection. -/
theorem unparsable_timestamp_kept (r : Rec) (s : String)
    (hts : lookupVal r "timestamp" = some (Value.str s)) (hne : s ≠ "")
    (hbad : parseIsoDatetime s = Option.none) :
    normTs r = r ∧
    lookupVal (normalizeHr r) "timestamp" = some (Value.str s) ∧
    (∀ rows : List Rec, r ∈ rows → r ∈ rows.map normTs) ∧
    (∀ rows : List Rec, (rows.map normTs).length = rows.length) := by
  have hmain : ∀ q : Rec, lookupVal q "timestamp" = some (Value.str s) → normTs q = q := by
    intro q hq
    unfold normTs
    have hgq : getVal q "timestamp" = Value.str s := by simp [getVal, hq]
    rw [hgq]
    simp [truthy, hne, tryParseTs, hbad]
  have h1 : normTs r = r := hmain r hts
  have hrn : lookupVal (renameBpm r) "timestamp" = some (Value.str s) := by
    unfold renameBpm
    cases hb : lookupVal r "bpm" with
    | none => cases hh : lookupVal r "heart_rate_bpm" <;> exact hts
    | some v =>
      cases hh : lookupVal r "heart_rate_bpm" with
      | some w => exact hts
      | none =>
        show lookupVal (eraseKey "bpm" r ++ [("heart_rate_bpm", v)]) "timestamp" = _
        rw [lookup_append, lookup_eraseKey_ne r "timestamp" "bpm" (by decide), hts]
  have h2 : lookupVal (normalizeHr r) "timestamp" = some (Value.str s) := by
    show lookupVal (normTs (renameBpm r)) "timestamp" = _
    rw [hmain (renameBpm r) hrn]
    exact hrn
  refine ⟨h1, h2, fun rows hr => ?_, fun rows => by simp⟩
  have hm := List.mem_map_of_mem normTs hr
  rwa [h1] at hm

/-- Witness for C6 at a concrete record with the unparsable timestamp
string "not-a-date". -/
theorem unparsable_timestamp_witness :
    normTs badTsRec = badTsRec ∧
    lookupVal (normalizeHr badTsRec) "timestamp" = some (Value.str "not-a-date") := by
  have h := unparsable_timestamp_kept badTsRec "not-a-date" (by decide) (by decide) (by decide)
  exact ⟨h.1, h.2.1⟩

/-- C9: normalizing the sample raw JSON heart-rate record yields the
canonical record with the parsed instant, `heart_rate_bpm` 72 and
`confidence` 0.9; in general (on records with distinct keys, as every dict
has) the rename `bpm`→`heart_rate_bpm` happens exactly when `bpm` is
present and `heart_rate_bpm` absent, and every field other than those two
and the parsed `timestamp` passes through untouched. -/
theorem normalizeHr_rename :
    (recKey (normalizeHr hrSample) =
      [("confidence", Value.float 9 10), ("heart_rate_bpm", Value.int 72),
       ("timestamp", Value.dt 20240101080000)] ∧
     parseIsoDatetime "2024-01-01T08:00:00" = some 20240101080000) ∧
    ∀ r : Rec, (fieldsOf r).Nodup →
      ((∀ v, lookupVal r "bpm" = some v → lookupVal r "heart_rate_bpm" = Option.none →
          lookupVal (renameBpm r) "heart_rate_bpm" = some v ∧
          lookupVal (renameBpm r) "bpm" = Option.none) ∧
       ((lookupVal r "bpm" = Option.none ∨ (lookupVal r "heart_rate_bpm").isSome = true) →
          renameBpm r = r) ∧
       (∀ k, k ≠ "bpm" → k ≠ "heart_rate_bpm" →
          lookupVal (renameBpm r) k = lookupVal r k) ∧
       (∀ k, k ≠ "timestamp" →
          lookupVal (normalizeHr r) k = lookupVal (renameBpm r) k)) := by
  refine ⟨⟨by decide, by decide⟩, fun r hnd => ⟨?_, ?_, ?_, ?_⟩⟩
  · intro v hb hh
    unfold renameBpm
    rw [hb, hh]
    constructor
    · show lookupVal (eraseKey "bpm" r ++ [("heart_rate_bpm", v)]) "heart_rate_bpm" = _
      rw [lookup_append, lookup_eraseKey_ne r "heart_rate_bpm" "bpm" (by decide), hh]
      rfl
    · show lookupVal (eraseKey "bpm" r ++ [("heart_rate_bpm", v)]) "bpm" = _
      rw [lookup_append, lookup_eraseKey_self r "bpm" hnd]
      simp [lookupVal]
  · intro hcase
    unfold renameBpm
    rcases hcase with hb | hh
    · rw [hb]
    · cases hb2 : lookupVal r "bpm" with
      | none => cases hh2 : lookupVal r "heart_rate_bpm" <;> rfl
      | some v =>
        cases hh2 : lookupVal r "heart_rate_bpm" with
        | none =>
          rw [hh2] at hh
          exact absurd hh (by simp)
        | some w => rfl
  · intro k hk1 hk2
    unfold renameBpm
    cases hb : lookupVal r "bpm" with
    | none => cases hh : lookupVal r "heart_rate_bpm" <;> rfl
    | some v =>
      cases hh : lookupVal r "heart_rate_bpm" with
      | some w => rfl
      | none =>
        show lookupVal (eraseKey "bpm" r ++ [("heart_rate_bpm", v)]) k = _
        rw [lookup_append, lookup_eraseKey_ne r k "bpm" (Ne.symm hk1)]
        cases hv : lookupVal r k with
        | some u => rfl
        | none => simp [lookupVal, Ne.symm hk2]
  · intro k hk
    exact lookup_normTs_ne (renameBpm r) k hk

/-- Witness for C9 at the sample record. -/
theorem normalizeHr_rename_witness :
    lookupVal (renameBpm hrSample) "heart_rate_bpm" = some (Value.int 72) ∧
    lookupVal (renameBpm hrSample) "bpm" = Option.none :=
  (normalizeHr_rename.2 hrSample (by decide)).1 (Value.int 72) (by decide) (by decide)

/-- C10: duplicate removal in the union merge is stable — the deduplicated
concatenation splits into the deduplicated `collection_a` followed by the
records of `collection_b` whose content does not already occur in
`collection_a` (so a record occurring in both sources survives as the
occurrence from `collection_a`); it is a sublist of the concatenation, so
distinct records appear in first-occurrence order; its records are
pairwise distinct; and every input record is represented. -/
theorem dedup_first_occurrence (a b : List Rec) :
    pyDedup (a ++ b) = pyDedup a ++ dedupAux (seenAfter [] a) b ∧
    List.Sublist (pyDedup (a ++ b)) (a ++ b) ∧
    ((pyDedup (a ++ b)).map recKey).Nodup ∧
    (∀ s ∈ dedupAux (seenAfter [] a) b, recKey s ∉ a.map recKey) ∧
    (∀ r ∈ a ++ b, recKey r ∈ (pyDedup (a ++ b)).map recKey) := by
  refine ⟨dedupAux_append [] a b, dedupAux_sublist [] _, dedupAux_keys_nodup [] _,
    fun s hs hmem => ?_, fun r hr => ?_⟩
  · have hk : recKey s ∈ (dedupAux (seenAfter [] a) b).map recKey :=
      List.mem_map_of_mem recKey hs
    exact ((dedupAux_key_mem _ _ _).mp hk).1
      ((seenAfter_mem [] a (recKey s)).mpr (Or.inr hmem))
  · rw [pyDedup_eq, dedupAux_key_mem]
    exact ⟨by simp, List.mem_map_of_mem recKey hr⟩

/-- Witness for C10 at concrete collections sharing a duplicated record. -/
theorem dedup_first_occurrence_witness :
    recKey dupRec ∈ (pyDedup ([dupRec] ++ [dupRec, stepsCsvRec])).map recKey :=
  (dedup_first_occurrence [dupRec] [dupRec, stepsCsvRec]).2.2.2.2 dupRec (by decide)

end FitPulse
